import Mathlib

/-!
# Verification of the `diskview` page-access layer

A shallow embedding, in Lean 4, of the Go package `internal/diskview`
(files `diskview.go`, plus the `Pager` and `Cache` files of the same
package). The embedding models:

* `Region` — one `mmap.MMap` mapping, identified by an allocation
  identity `rid`; its `unmapOk` field records whether the OS's
  `munmap` of this mapping will succeed (the outcome is fixed per
  mapping, chosen by the environment at allocation time).
* `World` — the ambient OS state we observe: the allocator for fresh
  mapping identities, the ordered trace of `Unmap` calls, and whether
  the Pager's file handle has been closed.
* `Cache` — the LRU cache of `cache.go`.  The doubly linked list with
  head/tail sentinels is represented by the Lean list of its real
  nodes in order `head.next … tail.prev` (most recently used first):
  every reachable configuration of the pointer structure is exactly
  such a chain, and each pointer operation of the source corresponds
  to the list operation used here.  A nil-pointer dereference
  (a Go runtime panic) is modelled as `none`.
* `Pager` — the Pager variant used by `diskview.go` (the one whose
  `PageCount` has no error return): it serves `PageCount` from the
  *cached* `os.FileInfo` taken at `NewPager`/`RefreshInfo` time.
  The second Pager variant found in the package, whose `PageCount`
  stats the live file on every call, is modelled as `PagerV2`.
* `DiskViewer` — the façade of `diskview.go`.

File sizes and offsets are modelled as `Nat` (they are non-negative in
every execution: `stat` sizes are non-negative and every offset the
code computes is `pageCount * pageSize + bytesWritten`); Go's `int64`
division on non-negative operands is `Nat` division.  Page ids and the
cache capacity keep the full signed range (`Int`), since the code can
meet negative values there.  Outcomes of OS calls (`WriteAt`, `Stat`,
`MapRegion`, `munmap`, `Close`) are supplied by explicit oracles, so
theorems quantify over every possible OS behaviour.
-/

set_option autoImplicit false
set_option linter.unusedVariables false

namespace DiskView

/-- Go `error` values met by this package; `Option GoErr` models a Go
`error` result (`none` = `nil`).  `osWrite`/`osStat`/`osMap`/`osClose`
are the opaque errors the OS returns; `osUnmap r` is a failure of
`munmap` on the mapping with identity `r`; the `*Wrap` constructors are
the `fmt.Errorf("…: %w", …)` wrappings performed by the package. -/
inductive GoErr where
  /-- `ErrCacheMiss` of `cache.go`. -/
  | cacheMiss
  /-- OS failure of `munmap` on mapping `rid`. -/
  | osUnmap (rid : Nat)
  /-- OS failure of `file.WriteAt`. -/
  | osWrite (code : Nat)
  /-- OS failure of `file.Stat`. -/
  | osStat (code : Nat)
  /-- OS failure of `mmap.MapRegion`. -/
  | osMap (code : Nat)
  /-- OS failure of `file.Close`. -/
  | osClose (code : Nat)
  /-- `fmt.Errorf("failed to write page at offset %d: %w", offset, err)` in `Create`. -/
  | writeWrap (offset : Nat) (inner : GoErr)
  /-- `fmt.Errorf("failed to refresh file info: %w", err)` in `Create`. -/
  | refreshWrap (inner : GoErr)
  /-- `fmt.Errorf("failed to unmap page %d: %w", value.id, err)` in `Cache.Close`. -/
  | unmapWrap (pageId : Int) (inner : GoErr)
deriving DecidableEq, Repr

/-- One `mmap.MMap` value: a live mapping.  `rid` is the identity of
the allocation (distinct calls to `MapRegion` give distinct `rid`s);
`unmapOk` is the environment's fixed answer for whether `munmap` of
this mapping succeeds. -/
structure Region where
  rid : Nat
  unmapOk : Bool
deriving DecidableEq, Repr

/-- The observable OS state threaded through the operations. -/
structure World where
  /-- Next fresh mapping identity handed out by `mmap.MapRegion`. -/
  nextRid : Nat
  /-- The `rid`s passed to `Unmap`, in call order (a call is recorded
  whether or not the `munmap` succeeded). -/
  unmapped : List Nat
  /-- Whether `Pager.Close` (i.e. `file.Close`) has been called. -/
  pagerClosed : Bool
deriving DecidableEq, Repr

/-- An initial world. -/
def World.init : World := ⟨0, [], false⟩

/-- `data.Unmap()`: records the call and returns the mapping's fixed
outcome. -/
def Region.Unmap (r : Region) (w : World) : Option GoErr × World :=
  ((if r.unmapOk then none else some (GoErr.osUnmap r.rid)),
   { w with unmapped := w.unmapped ++ [r.rid] })

/-- `Config` of `diskview.go`.  `MaxCapacity` is a Go `int`. -/
structure Config where
  MaxCapacity : Int
deriving DecidableEq, Repr

/-- `DefaultConfig` of `diskview.go`. -/
def DefaultConfig : Config := ⟨10⟩

/-- `CacheNode` of `cache.go`, without its two structural pointers:
a node's position is its position in the `Cache.list` chain below. -/
structure CacheNode where
  id : Int
  data : Region
deriving DecidableEq, Repr

/-- `Cache` of `cache.go`.  `list` is the chain of real nodes
`head.next … tail.prev`, most recently used first.  The Go `lookup`
map holds exactly the ids of the chain's nodes (the package's stated
invariant, maintained by every operation), so membership and `len` of
`lookup` are served by `list` here. -/
structure Cache where
  list : List CacheNode
  config : Config
deriving DecidableEq, Repr

/-- `l.lookup[id]`: the node of the chain carrying `id` (first match;
in reachable states ids are distinct). -/
def findNode : List CacheNode → Int → Option CacheNode
  | [], _ => none
  | n :: rest, id => if n.id = id then some n else findNode rest id

/-- Removal of the first node carrying `id` from the chain (the list
half of `moveToFront`'s unlinking, and of `delete(l.lookup, id)`). -/
def eraseNode : List CacheNode → Int → List CacheNode
  | [], _ => []
  | n :: rest, id => if n.id = id then rest else n :: eraseNode rest id

/-- `NewCache` of `cache.go`: a `MaxCapacity` of exactly `0` is
replaced by `10`; every other value (negative ones included) is kept.
The fresh sentinels wired as `head.next = tail; tail.prev = head`
are the empty chain. -/
def NewCache (config : Config) : Cache :=
  let config' := if config.MaxCapacity = 0 then { config with MaxCapacity := 10 } else config
  { list := [], config := config' }

/-- `insertAtFront` of `cache.go`: splice the node in right after the
head sentinel. -/
def Cache.insertAtFront (c : Cache) (node : CacheNode) : Cache :=
  { c with list := node :: c.list }

/-- `removeFromBack` of `cache.go`: `last := l.tail.prev` is the last
chain node when the chain is non-empty.  When the chain is empty,
`l.tail.prev` is the head sentinel itself, whose `prev` pointer is
nil; the statement `last.prev.next = l.tail` then dereferences nil —
a Go runtime panic, modelled as `none`. -/
def Cache.removeFromBack (c : Cache) : Option (CacheNode × Cache) :=
  match c.list.getLast? with
  | none => none
  | some last => some (last, { c with list := c.list.dropLast })

/-- `Cache.Get` of `cache.go`: on a hit, move the node to the front
(`moveToFront` unlinks it and reinserts it after the head sentinel)
and return its region; on a miss return `ErrCacheMiss` and leave the
cache unchanged.  The result pair is (Go result, cache after). -/
def Cache.Get (c : Cache) (id : Int) : (Option Region × Option GoErr) × Cache :=
  match findNode c.list id with
  | some node =>
      ((some node.data, none), { c with list := node :: eraseNode c.list id })
  | none => ((none, some GoErr.cacheMiss), c)

/-- `Cache.Set` of `cache.go`.  Present id: overwrite the node's data
and move it to the front, returning nil.  Fresh id: when
`len(l.lookup) >= l.config.MaxCapacity`, evict — `removeFromBack`,
`Unmap` the evicted region, `delete` its id from the lookup — then in
all cases insert the new node at the front and register it, returning
the eviction's `Unmap` error (nil when there was no eviction or the
`Unmap` succeeded).  `none` is the nil-pointer panic of
`removeFromBack` on an empty chain. -/
def Cache.Set (c : Cache) (w : World) (id : Int) (data : Region) :
    Option (Option GoErr × Cache × World) :=
  match findNode c.list id with
  | some _ =>
      some (none, { c with list := ⟨id, data⟩ :: eraseNode c.list id }, w)
  | none =>
      if (c.list.length : Int) ≥ c.config.MaxCapacity then
        match c.removeFromBack with
        | none => none
        | some (last, c₁) =>
            let (err, w₁) := last.data.Unmap w
            some (err, c₁.insertAtFront ⟨id, data⟩, w₁)
      else
        some (none, c.insertAtFront ⟨id, data⟩, w)

/-- `Cache.Close` of `cache.go`: `Unmap` every held region, keep the
first error (wrapped with the page id), continue past failures, and
leave the cache empty.  Go ranges over the `lookup` map in an
unspecified order; the model iterates in chain order — every theorem
below is insensitive to the iteration order. -/
def Cache.Close (c : Cache) (w : World) : Option GoErr × Cache × World :=
  let step := fun (acc : Option GoErr × World) (n : CacheNode) =>
    let (err, w') := n.data.Unmap acc.2
    (match acc.1, err with
     | none, some e => some (GoErr.unmapWrap n.id e)
     | firstErr, _ => firstErr, w')
  let r := c.list.foldl step (none, w)
  (r.1, { c with list := [] }, r.2)

/-- The `Pager` used by `diskview.go` (the variant whose `PageCount`
has no error return): `info` is the cached `os.FileInfo`, of which
only the size matters here; `pageSize` is `os.Getpagesize()`, a
positive value on every host. -/
structure Pager where
  infoSize : Nat
  pageSize : Nat
deriving DecidableEq, Repr

/-- `NewPager`: open (stat succeeding) over a file of size
`fileSize`. -/
def NewPager (fileSize pageSize : Nat) : Pager := ⟨fileSize, pageSize⟩

/-- `Pager.PageCount` of the cached-info variant:
`p.info.Size() / int64(p.pageSize)` — served from the *cached* stat,
not from the live file.  Go `int64` division on these non-negative
operands is `Nat` division. -/
def Pager.PageCount (p : Pager) : Nat := p.infoSize / p.pageSize

/-- `Pager.RefreshInfo`: re-stat the file (outcome `statErr` chosen by
the OS); on success replace the cached info with the live size. -/
def Pager.RefreshInfo (p : Pager) (fileSize : Nat) (statErr : Option GoErr) :
    Except GoErr Pager :=
  match statErr with
  | some e => Except.error e
  | none => Except.ok { p with infoSize := fileSize }

/-- Oracle for one `Pager.GetPage` call: whether `mmap.MapRegion`
fails, and – when it succeeds – whether the fresh mapping's eventual
`munmap` will succeed. -/
structure MapOracle where
  mapErr : Option GoErr
  uok : Bool
deriving DecidableEq, Repr

/-- `Pager.GetPage`: a fresh, independent mapping on every successful
call (the Pager holds no cache and performs no deduplication). -/
def Pager.GetPage (p : Pager) (w : World) (o : MapOracle) (id : Int) :
    Except GoErr Region × World :=
  match o.mapErr with
  | some e => (Except.error e, w)
  | none => (Except.ok ⟨w.nextRid, o.uok⟩, { w with nextRid := w.nextRid + 1 })

/-- `Pager.Close`: `file.Close`, with OS outcome `closeErr`. -/
def Pager.Close (p : Pager) (w : World) (closeErr : Option GoErr) :
    Option GoErr × World :=
  (closeErr, { w with pagerClosed := true })

/-- The second `Pager` variant of the package (`PageCount` returns
`(int64, error)` and stats the live file on every call). -/
structure PagerV2 where
  pageSize : Nat
deriving DecidableEq, Repr

/-- `PageCount` of the live-stat variant: stat the file now (OS
outcome `statErr`) and divide its current size by the page size. -/
def PagerV2.PageCount (p : PagerV2) (fileSize : Nat) (statErr : Option GoErr) :
    Except GoErr Nat :=
  match statErr with
  | some e => Except.error e
  | none => Except.ok (fileSize / p.pageSize)

/-- `DiskViewer` of `diskview.go`. -/
structure DiskViewer where
  cache : Cache
  pager : Pager
deriving DecidableEq, Repr

/-- `New` of `diskview.go`, on the success path of `NewPager`. -/
def New (fileSize pageSize : Nat) (config : Config) : DiskViewer :=
  ⟨NewCache config, NewPager fileSize pageSize⟩

/-- One OS answer to `d.fill` (`file.WriteAt` of `n` zero bytes):
the byte count reported written, and the accompanying error. -/
structure FillStep where
  n : Nat
  err : Option GoErr
deriving DecidableEq, Repr

/-- The partial-write loop of `DiskViewer.Create` (lines
`for remaining > 0 { … }`), driven by one OS answer per iteration.
Each `WriteAt` of `w` bytes at `offset` extends the file to at least
`offset + w` (the OS cannot write more than asked: the reported count
is clamped to the request).  On a `WriteAt` error the loop returns the
wrapped error at the current offset; bytes reported written alongside
the error are still on disk.  `none` models an execution needing more
OS answers than the oracle supplies (e.g. an endless loop of
zero-byte successful writes). -/
def fillLoop : List FillStep → Nat → Nat → Nat → Option (Option GoErr × Nat)
  | _, 0, _, fsize => some (none, fsize)
  | [], _ + 1, _, _ => none
  | s :: rest, r + 1, offset, fsize =>
      let written := min s.n (r + 1)
      let fsize' := max fsize (offset + written)
      match s.err with
      | some e => some (some (GoErr.writeWrap offset e), fsize')
      | none => fillLoop rest (r + 1 - written) (offset + written) fsize'

/-- Oracle for one `DiskViewer.Create` call: the `WriteAt` answers for
the fill loop, then the `Stat` outcome of `RefreshInfo`. -/
structure CreateOracle where
  steps : List FillStep
  statErr : Option GoErr
deriving DecidableEq, Repr

/-- `DiskViewer.Create`: write one page of zeros starting at
`PageCount() * pageSize` (retrying partial writes), `RefreshInfo`,
then `d.cache.Get(id)` on the new id (both results discarded), and
return `PageCount() - 1`.  The result triple is (Go result, viewer
after, file size after).  Failures leave the cached info untouched. -/
def DiskViewer.Create (d : DiskViewer) (fileSize : Nat) (o : CreateOracle) :
    Option (Except GoErr Int × DiskViewer × Nat) :=
  let offset := d.pager.PageCount * d.pager.pageSize
  match fillLoop o.steps d.pager.pageSize offset fileSize with
  | none => none
  | some (some e, fsize') => some (Except.error e, d, fsize')
  | some (none, fsize') =>
      match d.pager.RefreshInfo fsize' o.statErr with
      | Except.error e => some (Except.error (GoErr.refreshWrap e), d, fsize')
      | Except.ok p' =>
          let id : Int := (p'.PageCount : Int) - 1
          let c' := (Cache.Get d.cache id).2
          some (Except.ok ((p'.PageCount : Int) - 1), ⟨c', p'⟩, fsize')

/-- `DiskViewer.Read`: serve from the cache when `Get` hits; otherwise
`GetPage`, then `Set`; when `Set` returns an error, `Unmap` the fresh
region (discarding that second error) and surface `Set`'s error with
no region.  `none` propagates a `Set` panic. -/
def DiskViewer.Read (d : DiskViewer) (w : World) (o : MapOracle) (id : Int) :
    Option (Except GoErr Region × DiskViewer × World) :=
  match Cache.Get d.cache id with
  | ((some data, _), c') => some (Except.ok data, { d with cache := c' }, w)
  | ((none, _), c₀) =>
      match d.pager.GetPage w o id with
      | (Except.error e, w₁) => some (Except.error e, { d with cache := c₀ }, w₁)
      | (Except.ok data, w₁) =>
          match c₀.Set w₁ id data with
          | none => none
          | some (some err, c₁, w₂) =>
              let w₃ := (data.Unmap w₂).2
              some (Except.error err, { d with cache := c₁ }, w₃)
          | some (none, c₁, w₂) =>
              some (Except.ok data, { d with cache := c₁ }, w₂)

/-- `DiskViewer.Close`: `cache.Close()` first; a non-nil error from it
is returned at once — `pager.Close()` is then not called.  Otherwise
`pager.Close()`; its result is returned. -/
def DiskViewer.Close (d : DiskViewer) (w : World) (closeErr : Option GoErr) :
    Option GoErr × DiskViewer × World :=
  match Cache.Close d.cache w with
  | (some e, c', w') => (some e, { d with cache := c' }, w')
  | (none, c', w') =>
      let r := d.pager.Close w' closeErr
      (r.1, { d with cache := c' }, r.2)

/-- A sequence of `Create` calls with no interleaving, one oracle per
call; collects the Go results. -/
def runCreates (d : DiskViewer) (fileSize : Nat) :
    List CreateOracle → Option (List (Except GoErr Int) × DiskViewer × Nat)
  | [] => some ([], d, fileSize)
  | o :: os =>
      match d.Create fileSize o with
      | none => none
      | some (r, d', fs') =>
          match runCreates d' fs' os with
          | none => none
          | some (rs, d'', fs'') => some (r :: rs, d'', fs'')

/-- One Cache operation, for sequences of direct cache accesses. -/
inductive CacheOp where
  | get (id : Int)
  | set (id : Int) (data : Region)
deriving DecidableEq, Repr

/-- Run a sequence of `Get`/`Set` operations on the cache;
`none` propagates a `Set` panic. -/
def runOps (c : Cache) (w : World) : List CacheOp → Option (Cache × World)
  | [] => some (c, w)
  | CacheOp.get id :: ops => runOps (Cache.Get c id).2 w ops
  | CacheOp.set id data :: ops =>
      match c.Set w id data with
      | none => none
      | some (_, c', w') => runOps c' w' ops

/-- The ids held by the cache, most recently used first. -/
def Cache.ids (c : Cache) : List Int := c.list.map CacheNode.id

/-- The Go results of a result list that were successful. -/
def okResults (rs : List (Except GoErr Int)) : List Int :=
  rs.filterMap fun r => match r with | Except.ok i => some i | Except.error _ => none

/-- The `Set` operations inserting the given ids (with a fixed dummy
region: the LRU structure is insensitive to the regions stored). -/
def setOps (xs : List Int) : List CacheOp :=
  xs.map fun i => CacheOp.set i ⟨0, true⟩

/-- The node `setOps` makes the cache hold for an id. -/
def nodeOf (i : Int) : CacheNode := ⟨i, ⟨0, true⟩⟩

/-! ## Pointer-level fragment

`removeFromBack` transliterated at the level of the raw `next`/`prev`
pointers, to ground the nil-dereference analysis used above: a store
maps addresses to nodes, `Option Nat` is a possibly-nil pointer, and
a nil dereference aborts with `none` (the Go runtime panic). -/

/-- The two structural pointers of a `CacheNode`. -/
structure PNode where
  prev : Option Nat
  next : Option Nat
deriving DecidableEq, Repr

/-- The pointer structure `NewCache` builds before any insertion:
the head sentinel at address `0` (`prev` nil, `next` the tail) and the
tail sentinel at address `1` (`prev` the head, `next` nil). -/
def emptySentinels : Nat → Option PNode := fun a =>
  if a = 0 then some ⟨none, some 1⟩
  else if a = 1 then some ⟨some 0, none⟩
  else none

/-- `removeFromBack` of `cache.go` at pointer level, `l.tail` being at
address `tailA`:  `last := l.tail.prev`, then `last.prev.next = l.tail`
(dereferencing `last.prev`), `l.tail.prev = last.prev`, and the removed
node's pointers are cleared.  Returns the removed node's address and
the updated store; `none` is a nil dereference. -/
def removeFromBackP (nodes : Nat → Option PNode) (tailA : Nat) :
    Option (Nat × (Nat → Option PNode)) := do
  let t ← nodes tailA
  let lastA ← t.prev
  let last ← nodes lastA
  let lpA ← last.prev
  let lp ← nodes lpA
  let nodes' := fun a =>
    if a = lpA then some { lp with next := some tailA }
    else if a = tailA then some { t with prev := some lpA }
    else if a = lastA then some (⟨none, none⟩ : PNode)
    else nodes a
  pure (lastA, nodes')

/-! ## Helper lemmas about the cache primitives -/

theorem findNode_eq_none_iff (L : List CacheNode) (id : Int) :
    findNode L id = none ↔ ∀ n ∈ L, n.id ≠ id := by
  induction L with
  | nil => simp [findNode]
  | cons n rest ih =>
      by_cases h : n.id = id <;> simp [findNode, h, ih]

theorem eraseNode_of_not_found (L : List CacheNode) (id : Int)
    (h : findNode L id = none) : eraseNode L id = L := by
  induction L with
  | nil => rfl
  | cons n rest ih =>
      rw [findNode] at h
      by_cases hn : n.id = id
      · simp [hn] at h
      · simp [hn] at h
        simp [eraseNode, hn, ih h]

theorem length_eraseNode_of_found (L : List CacheNode) (id : Int) (n : CacheNode)
    (h : findNode L id = some n) : (eraseNode L id).length + 1 = L.length := by
  induction L with
  | nil => simp [findNode] at h
  | cons m rest ih =>
      rw [findNode] at h
      by_cases hm : m.id = id
      · simp [eraseNode, hm]
      · simp [hm] at h
        simp [eraseNode, hm, ih h]

theorem Cache.Get_miss (c : Cache) (id : Int) (h : findNode c.list id = none) :
    Cache.Get c id = ((none, some GoErr.cacheMiss), c) := by
  simp [Cache.Get, h]

theorem Cache.Get_hit (c : Cache) (id : Int) (n : CacheNode)
    (h : findNode c.list id = some n) :
    Cache.Get c id = ((some n.data, none), { c with list := n :: eraseNode c.list id }) := by
  simp [Cache.Get, h]

theorem Cache.Get_length (c : Cache) (id : Int) :
    ((Cache.Get c id).2).list.length = c.list.length := by
  unfold Cache.Get
  cases h : findNode c.list id with
  | none => rfl
  | some n => simpa using length_eraseNode_of_found c.list id n h

theorem Cache.Set_present (c : Cache) (w : World) (id : Int) (data : Region)
    (n : CacheNode) (h : findNode c.list id = some n) :
    Cache.Set c w id data =
      some (none, { c with list := ⟨id, data⟩ :: eraseNode c.list id }, w) := by
  simp [Cache.Set, h]

theorem Cache.Set_fresh_room (c : Cache) (w : World) (id : Int) (data : Region)
    (h : findNode c.list id = none)
    (hcap : ¬ ((c.list.length : Int) ≥ c.config.MaxCapacity)) :
    Cache.Set c w id data = some (none, { c with list := ⟨id, data⟩ :: c.list }, w) := by
  simp [Cache.Set, h, hcap, Cache.insertAtFront]

theorem Cache.Set_fresh_evict (c : Cache) (w : World) (id : Int) (data : Region)
    (M : List CacheNode) (last : CacheNode)
    (h : findNode c.list id = none)
    (hcap : (c.list.length : Int) ≥ c.config.MaxCapacity)
    (hl : c.list = M ++ [last]) :
    Cache.Set c w id data =
      some ((if last.data.unmapOk then none else some (GoErr.osUnmap last.data.rid)),
        { c with list := ⟨id, data⟩ :: M },
        { w with unmapped := w.unmapped ++ [last.data.rid] }) := by
  obtain ⟨L, cfg⟩ := c
  simp only at hl h hcap ⊢
  subst hl
  simp only [List.length_append, List.length_singleton] at hcap
  simp [Cache.Set, h, hcap, Cache.removeFromBack, Cache.insertAtFront, Region.Unmap,
    List.getLast?_concat, List.dropLast_concat]
  omega

theorem Cache.Set_empty_panic (c : Cache) (w : World) (id : Int) (data : Region)
    (hl : c.list = []) (hcap : c.config.MaxCapacity ≤ 0) :
    Cache.Set c w id data = none := by
  simp [Cache.Set, hl, findNode, Cache.removeFromBack, hcap]

theorem Cache.Close_foldl_spec (L : List CacheNode) (acc : Option GoErr × World) :
    (L.foldl
      (fun (acc : Option GoErr × World) (n : CacheNode) =>
        let (err, w') := n.data.Unmap acc.2
        (match acc.1, err with
         | none, some e => some (GoErr.unmapWrap n.id e)
         | firstErr, _ => firstErr, w')) acc).2 =
      { acc.2 with unmapped := acc.2.unmapped ++ L.map fun n => n.data.rid } := by
  induction L generalizing acc with
  | nil => simp
  | cons n rest ih =>
      rw [List.foldl_cons, ih]
      simp [Region.Unmap]

theorem Cache.Close_world (c : Cache) (w : World) :
    (Cache.Close c w).2.2 =
      { w with unmapped := w.unmapped ++ c.list.map fun n => n.data.rid } := by
  unfold Cache.Close
  exact Cache.Close_foldl_spec c.list (none, w)

theorem runOps_append (c : Cache) (w : World) (ops₁ ops₂ : List CacheOp) :
    runOps c w (ops₁ ++ ops₂) =
      (runOps c w ops₁).bind fun p => runOps p.1 p.2 ops₂ := by
  induction ops₁ generalizing c w with
  | nil => simp [runOps]
  | cons op rest ih =>
      cases op with
      | get id => simp [runOps, ih]
      | set id data =>
          simp only [List.cons_append, runOps]
          cases Cache.Set c w id data with
          | none => rfl
          | some r => exact ih r.2.1 r.2.2

theorem Cache.Get_config (c : Cache) (id : Int) :
    ((Cache.Get c id).2).config = c.config := by
  unfold Cache.Get
  cases findNode c.list id <;> rfl

/-- A `Set` on a cache whose size respects a capacity of at least one
returns normally and keeps the size within capacity (the eviction
branch removes exactly one node before inserting). -/
theorem Cache.Set_step (c : Cache) (w : World) (id : Int) (data : Region)
    (hcap1 : 1 ≤ c.config.MaxCapacity)
    (hlen : (c.list.length : Int) ≤ c.config.MaxCapacity) :
    ∃ e c' w', Cache.Set c w id data = some (e, c', w') ∧
      (c'.list.length : Int) ≤ c.config.MaxCapacity ∧ c'.config = c.config := by
  cases hf : findNode c.list id with
  | some n =>
      refine ⟨none, _, w, Cache.Set_present c w id data n hf, ?_, rfl⟩
      have := length_eraseNode_of_found c.list id n hf
      simp only [List.length_cons]
      omega
  | none =>
      by_cases hge : (c.list.length : Int) ≥ c.config.MaxCapacity
      · have hne : c.list ≠ [] := by
          intro h0
          rw [h0] at hge
          simp at hge
          omega
        rcases List.eq_nil_or_concat c.list with h0 | ⟨M, last, hMl⟩
        · exact absurd h0 hne
        · rw [List.concat_eq_append] at hMl
          refine ⟨_, _, _, Cache.Set_fresh_evict c w id data M last hf hge hMl, ?_, rfl⟩
          have : c.list.length = M.length + 1 := by rw [hMl]; simp
          simp only [List.length_cons]
          omega
      · refine ⟨none, _, w, Cache.Set_fresh_room c w id data hf hge, ?_, rfl⟩
        simp only [List.length_cons]
        omega

/-- Any sequence of `Get`/`Set` operations on a cache within a
capacity of at least one runs to completion and keeps the size within
capacity. -/
theorem runOps_total_bound (ops : List CacheOp) :
    ∀ (c : Cache) (w : World), 1 ≤ c.config.MaxCapacity →
      (c.list.length : Int) ≤ c.config.MaxCapacity →
      ∃ c' w', runOps c w ops = some (c', w') ∧
        (c'.list.length : Int) ≤ c.config.MaxCapacity ∧ c'.config = c.config := by
  induction ops with
  | nil => exact fun c w _ hlen => ⟨c, w, rfl, hlen, rfl⟩
  | cons op rest ih =>
      intro c w hcap1 hlen
      cases op with
      | get id =>
          obtain ⟨c', w', hrun, hb, hcfg⟩ := ih (Cache.Get c id).2 w
            (by rw [Cache.Get_config]; exact hcap1)
            (by rw [Cache.Get_config, Cache.Get_length]; exact hlen)
          exact ⟨c', w', by simpa [runOps] using hrun, by rw [Cache.Get_config] at hb; exact hb,
            by rw [Cache.Get_config] at hcfg; exact hcfg⟩
      | set id data =>
          obtain ⟨e, c₁, w₁, hset, hb₁, hcfg₁⟩ := Cache.Set_step c w id data hcap1 hlen
          obtain ⟨c', w', hrun, hb, hcfg⟩ := ih c₁ w₁
            (by rw [hcfg₁]; exact hcap1) (by rw [hcfg₁]; exact hb₁)
          exact ⟨c', w', by simp [runOps, hset, hrun], by rw [hcfg₁] at hb; exact hb,
            by rw [hcfg₁] at hcfg; exact hcfg⟩

theorem findNode_eq_none_of_not_mem_ids (L : List CacheNode) (id : Int)
    (h : id ∉ L.map CacheNode.id) : findNode L id = none :=
  (findNode_eq_none_iff L id).2 fun n hn hEq => h (hEq ▸ List.mem_map_of_mem CacheNode.id hn)

theorem findNode_concat (M : List CacheNode) (n : CacheNode) (id : Int)
    (hM : ∀ p ∈ M, p.id ≠ id) (hn : n.id = id) :
    findNode (M ++ [n]) id = some n := by
  induction M with
  | nil => simp [findNode, hn]
  | cons p rest ih =>
      have hp : p.id ≠ id := hM p (List.mem_cons_self p rest)
      simp only [List.cons_append, findNode, hp, if_false]
      exact ih fun q hq => hM q (List.mem_cons_of_mem p hq)

theorem eraseNode_concat (M : List CacheNode) (n : CacheNode) (id : Int)
    (hM : ∀ p ∈ M, p.id ≠ id) (hn : n.id = id) :
    eraseNode (M ++ [n]) id = M := by
  induction M with
  | nil => simp [eraseNode, hn]
  | cons p rest ih =>
      have hp : p.id ≠ id := hM p (List.mem_cons_self p rest)
      show eraseNode (p :: (rest ++ [n])) id = p :: rest
      rw [eraseNode, if_neg hp, ih fun q hq => hM q (List.mem_cons_of_mem p hq)]

theorem ids_reverse_map (l : List Int) :
    ((l.map nodeOf).reverse).map CacheNode.id = l.reverse := by
  rw [List.map_reverse, List.map_map]
  have h : CacheNode.id ∘ nodeOf = fun i => i := funext fun i => rfl
  rw [h, List.map_id']

/-- Inserting a list of pairwise-distinct fresh ids while the cache
has room for all of them stacks them at the front, in reverse
insertion order, without touching the world. -/
theorem runOps_setOps_fill (xs : List Int) :
    ∀ (c : Cache) (w : World),
      (∀ x ∈ xs, findNode c.list x = none) → xs.Nodup →
      ((c.list.length : Int) + xs.length ≤ c.config.MaxCapacity) →
      runOps c w (setOps xs) =
        some ({ c with list := (xs.map nodeOf).reverse ++ c.list }, w) := by
  induction xs with
  | nil => intro c w _ _ _; simp [setOps, runOps]
  | cons x rest ih =>
      intro c w hfresh hnd hlen
      have hfx : findNode c.list x = none := hfresh x (List.mem_cons_self x rest)
      have hroom : ¬ ((c.list.length : Int) ≥ c.config.MaxCapacity) := by
        simp only [List.length_cons] at hlen
        push_cast at hlen ⊢
        omega
      have hstep := Cache.Set_fresh_room c w x ⟨0, true⟩ hfx hroom
      have hxrest : x ∉ rest := (List.nodup_cons.1 hnd).1
      have hfresh' : ∀ y ∈ rest, findNode ({ c with list := ⟨x, ⟨0, true⟩⟩ :: c.list } : Cache).list y = none := by
        intro y hy
        have hxy : x ≠ y := fun h => hxrest (h ▸ hy)
        simp only [findNode, hxy, if_false]
        exact hfresh y (List.mem_cons_of_mem x hy)
      have hrec := ih { c with list := ⟨x, ⟨0, true⟩⟩ :: c.list } w hfresh'
        (List.nodup_cons.1 hnd).2
        (by simp only [List.length_cons] at hlen ⊢; push_cast at hlen ⊢; omega)
      show runOps c w (CacheOp.set x ⟨0, true⟩ :: setOps rest) = _
      rw [runOps, hstep]
      dsimp only
      rw [hrec]
      simp [nodeOf, List.append_assoc]

/-- A `Set` of a fresh id on a cache within a capacity of at least one
returns normally with the new node at the front of the chain. -/
theorem Cache.Set_fresh_shape (c : Cache) (w : World) (id : Int) (data : Region)
    (hf : findNode c.list id = none) (hcap : 1 ≤ c.config.MaxCapacity) :
    ∃ e L' w', Cache.Set c w id data = some (e, ⟨⟨id, data⟩ :: L', c.config⟩, w') := by
  by_cases hge : (c.list.length : Int) ≥ c.config.MaxCapacity
  · have hne : c.list ≠ [] := by
      intro h0
      rw [h0] at hge
      simp at hge
      omega
    rcases List.eq_nil_or_concat c.list with h0 | ⟨M, last, hMl⟩
    · exact absurd h0 hne
    · rw [List.concat_eq_append] at hMl
      exact ⟨_, M, _, Cache.Set_fresh_evict c w id data M last hf hge hMl⟩
  · exact ⟨none, c.list, w, Cache.Set_fresh_room c w id data hf hge⟩

/-! ## Claim theorems -/

/-- **C10.**  A cache constructed with a negative `MaxCapacity` keeps
the negative capacity (only an exact `0` is replaced by the default
`10`), and the first `Set` on the resulting empty cache takes the
eviction branch, where `removeFromBack` dereferences the nil `prev`
pointer of the head sentinel (shown both on the cache model and on the
pointer-level transliteration of `removeFromBack` applied to the
sentinel structure `NewCache` builds), so `Set` does not return
normally. -/
theorem negative_capacity_set_panics (m : Int) (hm : m < 0)
    (id : Int) (data : Region) (w : World) :
    (NewCache ⟨m⟩).config.MaxCapacity = m ∧
    (∀ m' : Int, m' ≠ 0 → (NewCache ⟨m'⟩).config.MaxCapacity = m') ∧
    (NewCache ⟨0⟩).config.MaxCapacity = 10 ∧
    Cache.removeFromBack (NewCache ⟨m⟩) = none ∧
    removeFromBackP emptySentinels 1 = none ∧
    Cache.Set (NewCache ⟨m⟩) w id data = none := by
  have hm0 : m ≠ 0 := by omega
  refine ⟨by simp [NewCache, hm0], fun m' hm' => by simp [NewCache, hm'], rfl, rfl, rfl, ?_⟩
  exact Cache.Set_empty_panic _ w id data (by simp [NewCache, hm0]) (by simp [NewCache, hm0]; omega)

theorem negative_capacity_set_panics_witness :
    (-1 : Int) < 0 ∧ Cache.Set (NewCache ⟨-1⟩) World.init 5 ⟨0, true⟩ = none :=
  ⟨by decide,
   (negative_capacity_set_panics (-1) (by decide) 5 ⟨0, true⟩ World.init).2.2.2.2.2⟩

/-- **C3.**  The code evaluated at the failing input: one `Create` on
an empty store (page size 4, capacity-2 cache) succeeds with id `0`,
yet leaves the cache *empty* — the pre-warm step `d.cache.Get(id)`
never inserts on a miss.  By contrast an immediate `Read(0)` on the
post-`Create` state (what the spec says the pre-warm is equivalent to)
leaves the cache holding id `0`. -/
theorem create_prewarm_is_noop :
    DiskViewer.Create (New 0 4 ⟨2⟩) 0 ⟨[⟨4, none⟩], none⟩ =
      some (Except.ok 0, ⟨⟨[], ⟨2⟩⟩, ⟨4, 4⟩⟩, 4) ∧
    (DiskViewer.Read ⟨⟨[], ⟨2⟩⟩, ⟨4, 4⟩⟩ World.init ⟨none, true⟩ 0).map
      (fun t => Cache.ids t.2.1.cache) = some [0] :=
  ⟨rfl, rfl⟩

/-- **C4, counterexample.**  A `DiskViewer` whose cache holds one
region whose `munmap` fails: `Close` returns the cache's error and the
Pager's file handle is *not* closed — refuting the claim that the
Pager close is attempted even when the Cache close errored. -/
theorem close_skips_pager_on_cache_error :
    (DiskViewer.Close ⟨⟨[⟨5, ⟨0, false⟩⟩], ⟨1⟩⟩, ⟨4, 4⟩⟩ World.init none).1 =
      some (GoErr.unmapWrap 5 (GoErr.osUnmap 0)) ∧
    (DiskViewer.Close ⟨⟨[⟨5, ⟨0, false⟩⟩], ⟨1⟩⟩, ⟨4, 4⟩⟩ World.init none).2.2.pagerClosed
      = false :=
  ⟨rfl, rfl⟩

/-- **C4, amended.**  `Close` closes the Cache first; if the Cache
close returns an error, that error is returned at once and the Pager's
file handle is not closed; only when the Cache close succeeds is the
Pager closed, and its result returned. -/
theorem close_cache_first_early_return (d : DiskViewer) (w : World)
    (closeErr : Option GoErr) :
    (∀ e, (Cache.Close d.cache w).1 = some e →
        (DiskViewer.Close d w closeErr).1 = some e ∧
        (DiskViewer.Close d w closeErr).2.2.pagerClosed = w.pagerClosed) ∧
    ((Cache.Close d.cache w).1 = none →
        (DiskViewer.Close d w closeErr).1 = closeErr ∧
        (DiskViewer.Close d w closeErr).2.2.pagerClosed = true) := by
  have hw := Cache.Close_world d.cache w
  rcases hcc : Cache.Close d.cache w with ⟨fe, c', w'⟩
  rw [hcc] at hw
  have hw' : w'.pagerClosed = w.pagerClosed := by rw [show w' = (fe, c', w').2.2 from rfl, hw]
  unfold DiskViewer.Close
  rw [hcc]
  cases fe with
  | some e0 =>
      refine ⟨fun e he => ?_, fun h => by simp at h⟩
      obtain rfl : e0 = e := by simpa using he
      exact ⟨rfl, hw'⟩
  | none =>
      exact ⟨fun e he => by simp at he, fun _ => ⟨rfl, rfl⟩⟩

theorem close_cache_first_early_return_witness :
    ((Cache.Close (Cache.mk [⟨5, ⟨0, false⟩⟩] ⟨1⟩) World.init).1 =
        some (GoErr.unmapWrap 5 (GoErr.osUnmap 0)) ∧
      (DiskViewer.Close ⟨⟨[⟨5, ⟨0, false⟩⟩], ⟨1⟩⟩ , ⟨4, 4⟩⟩ World.init none).1 =
        some (GoErr.unmapWrap 5 (GoErr.osUnmap 0)) ∧
      (DiskViewer.Close ⟨⟨[⟨5, ⟨0, false⟩⟩], ⟨1⟩⟩ , ⟨4, 4⟩⟩ World.init none).2.2.pagerClosed
        = World.init.pagerClosed) ∧
    ((Cache.Close (Cache.mk [⟨6, ⟨0, true⟩⟩] ⟨1⟩) World.init).1 = none ∧
      (DiskViewer.Close ⟨⟨[⟨6, ⟨0, true⟩⟩], ⟨1⟩⟩ , ⟨4, 4⟩⟩ World.init none).1 = none ∧
      (DiskViewer.Close ⟨⟨[⟨6, ⟨0, true⟩⟩], ⟨1⟩⟩ , ⟨4, 4⟩⟩ World.init none).2.2.pagerClosed
        = true) :=
  ⟨⟨rfl,
    (close_cache_first_early_return ⟨⟨[⟨5, ⟨0, false⟩⟩], ⟨1⟩⟩, ⟨4, 4⟩⟩ World.init none).1
      (GoErr.unmapWrap 5 (GoErr.osUnmap 0)) rfl⟩,
   ⟨rfl,
    (close_cache_first_early_return ⟨⟨[⟨6, ⟨0, true⟩⟩], ⟨1⟩⟩, ⟨4, 4⟩⟩ World.init none).2 rfl⟩⟩

/-- **C8, counterexample.**  Over an initially empty file with page
size 4, a write extends the file to size 4 (one full page), yet the
next `PageCount()` call of the Pager variant used by `diskview.go`
still returns 0 — it serves the *cached* stat, not the file's actual
size at the time of the call (which gives `4 / 4 = 1`). -/
theorem pageCount_stale_after_write :
    fillLoop [⟨4, none⟩] 4 0 0 = some (none, 4) ∧
    (NewPager 0 4).PageCount = 0 ∧
    (4 : Nat) / 4 = 1 := by
  refine ⟨rfl, rfl, rfl⟩

/-- **C8, amended.**  `PageCount()` of the Pager used by `diskview.go`
returns `cachedInfoSize / pageSize` by truncated division — the size
recorded by the last `NewPager`/`RefreshInfo` stat, so a write that
extends the file is reflected only after the next successful
`RefreshInfo`; a trailing partial page is discarded by the truncation.
The package's second Pager variant (`PageCount` with an error return)
does stat the live file on every call and returns
`currentFileSize / pageSize`. -/
theorem pageCount_cached_info_division (p : Pager) (fs k r ps : Nat) (p' : Pager)
    (hps : 0 < ps) (hr : r < ps)
    (hrefresh : p.RefreshInfo fs none = Except.ok p') :
    p.PageCount = p.infoSize / p.pageSize ∧
    p'.PageCount = fs / p.pageSize ∧
    (Pager.mk (k * ps + r) ps).PageCount = k ∧
    PagerV2.PageCount ⟨ps⟩ fs none = Except.ok (fs / ps) := by
  obtain rfl : ({ p with infoSize := fs } : Pager) = p' := by
    simpa [Pager.RefreshInfo] using hrefresh
  refine ⟨rfl, rfl, ?_, rfl⟩
  show (k * ps + r) / ps = k
  rw [mul_comm, Nat.mul_add_div hps, Nat.div_eq_of_lt hr]
  rfl

theorem pageCount_cached_info_division_witness :
    (0 : Nat) < 4 ∧ (1 : Nat) < 4 ∧
    (Pager.mk 9 4).RefreshInfo 7 none = Except.ok (Pager.mk 7 4) ∧
    ((Pager.mk 9 4).PageCount = 9 / 4 ∧
      (Pager.mk 7 4).PageCount = 7 / 4 ∧
      (Pager.mk (2 * 4 + 1) 4).PageCount = 2 ∧
      PagerV2.PageCount ⟨4⟩ 7 none = Except.ok (7 / 4)) :=
  ⟨by decide, by decide, rfl,
   pageCount_cached_info_division (Pager.mk 9 4) 7 2 1 4 (Pager.mk 7 4)
     (by decide) (by decide) rfl⟩

/-- **C6.**  For a cache built by `NewCache` with a non-negative
`MaxCapacity` (a capacity of `0` defaults to `10`), any sequence of
`Get`/`Set` operations completes with the entry count never exceeding
the configured capacity; and a `Set` of a fresh id on a cache exactly
at capacity evicts exactly one entry — the last of the recency chain —
before inserting, leaving the entry count unchanged. -/
theorem cache_size_bounded_by_capacity (m : Int) (hm : 0 ≤ m)
    (ops : List CacheOp) (w : World) :
    (∃ c' w', runOps (NewCache ⟨m⟩) w ops = some (c', w') ∧
      (c'.list.length : Int) ≤ (NewCache ⟨m⟩).config.MaxCapacity) ∧
    (∀ (c : Cache) (w₀ : World) (id : Int) (data : Region),
      1 ≤ c.config.MaxCapacity →
      findNode c.list id = none →
      (c.list.length : Int) = c.config.MaxCapacity →
      ∃ e c' w', Cache.Set c w₀ id data = some (e, c', w') ∧
        c'.list = ⟨id, data⟩ :: c.list.dropLast ∧
        c'.list.length = c.list.length) := by
  constructor
  · have hcap1 : 1 ≤ (NewCache ⟨m⟩).config.MaxCapacity := by
      by_cases h0 : m = 0
      · subst h0; decide
      · simp [NewCache, h0]; omega
    obtain ⟨c', w', hrun, hb, _⟩ :=
      runOps_total_bound ops (NewCache ⟨m⟩) w hcap1
        (by simpa [NewCache] using le_trans zero_le_one hcap1)
    exact ⟨c', w', hrun, hb⟩
  · intro c w₀ id data hcap1 hf heq
    have hne : c.list ≠ [] := by
      intro h0; rw [h0] at heq; simp at heq; omega
    rcases List.eq_nil_or_concat c.list with h0 | ⟨M, last, hMl⟩
    · exact absurd h0 hne
    · rw [List.concat_eq_append] at hMl
      refine ⟨_, _, _, Cache.Set_fresh_evict c w₀ id data M last hf (le_of_eq heq.symm) hMl, ?_, ?_⟩
      · rw [hMl, List.dropLast_concat]
      · rw [hMl]; simp

theorem cache_size_bounded_by_capacity_witness :
    ((0 : Int) ≤ 2 ∧ ∃ c' w',
      runOps (NewCache ⟨2⟩) World.init
        [CacheOp.set 0 ⟨0, true⟩, CacheOp.set 1 ⟨1, true⟩, CacheOp.set 2 ⟨2, true⟩] =
          some (c', w') ∧
      (c'.list.length : Int) ≤ (NewCache ⟨2⟩).config.MaxCapacity) ∧
    (∃ e c' w', Cache.Set (Cache.mk [⟨1, ⟨1, true⟩⟩, ⟨0, ⟨0, true⟩⟩] ⟨2⟩) World.init 2 ⟨2, true⟩
        = some (e, c', w') ∧
      c'.list = ⟨2, ⟨2, true⟩⟩ :: ([⟨1, ⟨1, true⟩⟩, ⟨0, ⟨0, true⟩⟩] :
          List CacheNode).dropLast ∧
      c'.list.length = ([⟨1, ⟨1, true⟩⟩, ⟨0, ⟨0, true⟩⟩] : List CacheNode).length) :=
  ⟨⟨by decide,
    (cache_size_bounded_by_capacity 2 (by decide)
      [CacheOp.set 0 ⟨0, true⟩, CacheOp.set 1 ⟨1, true⟩, CacheOp.set 2 ⟨2, true⟩]
      World.init).1⟩,
   (cache_size_bounded_by_capacity 2 (by decide) [] World.init).2
     (Cache.mk [⟨1, ⟨1, true⟩⟩, ⟨0, ⟨0, true⟩⟩] ⟨2⟩) World.init 2 ⟨2, true⟩
     (by decide) (by decide) (by decide)⟩

/-- **C7.**  A `Set` of a fresh id on a cache at capacity evicts the
least-recently-used entry (the last of the recency chain): that
entry's region is `Unmap`ped and its id leaves the lookup structure
and the chain; the new entry is then inserted at the
most-recently-used position — also when the `Unmap` failed — and `Set`
returns exactly the `Unmap`'s error (`nil` when it succeeded). -/
theorem set_evicts_lru_then_inserts (c : Cache) (w : World) (id : Int) (data : Region)
    (M : List CacheNode) (last : CacheNode)
    (hl : c.list = M ++ [last])
    (hfresh : findNode c.list id = none)
    (hcap : (c.list.length : Int) ≥ c.config.MaxCapacity)
    (hnd : c.ids.Nodup) :
    Cache.Set c w id data =
      some ((if last.data.unmapOk then none else some (GoErr.osUnmap last.data.rid)),
        { c with list := ⟨id, data⟩ :: M },
        { w with unmapped := w.unmapped ++ [last.data.rid] }) ∧
    last.id ∉ ({ c with list := ⟨id, data⟩ :: M } : Cache).ids ∧
    ({ c with list := ⟨id, data⟩ :: M } : Cache).ids.head? = some id := by
  refine ⟨Cache.Set_fresh_evict c w id data M last hfresh hcap hl, ?_, rfl⟩
  have hlastid : last.id ≠ id :=
    (findNode_eq_none_iff c.list id).1 hfresh last
      (by rw [hl]; exact List.mem_append_right _ (List.mem_singleton_self last))
  have hndM : last.id ∉ M.map CacheNode.id := by
    rw [Cache.ids, hl, List.map_append] at hnd
    rcases List.nodup_append.1 hnd with ⟨_, _, hdisj⟩
    intro hmem
    exact hdisj hmem (by simp)
  simp only [Cache.ids, List.map_cons, List.mem_cons]
  rintro (h | h)
  · exact hlastid h
  · exact hndM h

theorem set_evicts_lru_then_inserts_witness :
    Cache.Set (Cache.mk [⟨1, ⟨1, true⟩⟩, ⟨0, ⟨0, false⟩⟩] ⟨2⟩) World.init 2 ⟨2, true⟩ =
      some (some (GoErr.osUnmap 0),
        Cache.mk [⟨2, ⟨2, true⟩⟩, ⟨1, ⟨1, true⟩⟩] ⟨2⟩,
        ⟨0, [0], false⟩) ∧
    (0 : Int) ∉ (Cache.mk [⟨2, ⟨2, true⟩⟩, ⟨1, ⟨1, true⟩⟩] ⟨2⟩).ids ∧
    (Cache.mk [⟨2, ⟨2, true⟩⟩, ⟨1, ⟨1, true⟩⟩] ⟨2⟩).ids.head? = some 2 := by
  have h := set_evicts_lru_then_inserts
    (Cache.mk [⟨1, ⟨1, true⟩⟩, ⟨0, ⟨0, false⟩⟩] ⟨2⟩) World.init 2 ⟨2, true⟩
    [⟨1, ⟨1, true⟩⟩] ⟨0, ⟨0, false⟩⟩ rfl (by decide) (by decide) (by decide)
  exact ⟨h.1, h.2.1, h.2.2⟩

/-- **C5.**  Strict LRU.  Over a fresh cache of capacity `N ≥ 1`, take
`N + 1` pairwise-distinct ids `x :: mid ++ [z]`.  (1) After inserting
the first `N` the cache holds exactly them, most recent first, so the
first-accessed `x` is still present.  (2) After the `(N+1)`-th
insertion, the first-accessed `x` has been evicted: the cache holds
exactly the last `N` ids accessed, and a `Get` of `x` is a cache miss
(not a spurious hit) — with `N = 2` and ids `0,1,2` this is the spec's
concrete scenario (cache `{1, 2}`, `Get 0` misses).  (3) A `Get` of
`x` before the eviction pressure promotes it: the `(N+1)`-th insertion
then evicts the less-recently-used second id `m0` while `x` stays. -/
theorem lru_evicts_first_accessed (N : Nat) (hN : 1 ≤ N) (x z : Int) (mid : List Int)
    (w : World) (hmid : mid.length = N - 1)
    (hnd : (x :: mid ++ [z]).Nodup) :
    (∃ c₁, runOps (NewCache ⟨(N : Int)⟩) w (setOps (x :: mid)) = some (c₁, w) ∧
      c₁.ids = (x :: mid).reverse ∧ x ∈ c₁.ids) ∧
    (∃ c₂ w₂, runOps (NewCache ⟨(N : Int)⟩) w (setOps (x :: mid ++ [z])) = some (c₂, w₂) ∧
      c₂.ids = ((x :: mid ++ [z]).drop 1).reverse ∧
      x ∉ c₂.ids ∧ (Cache.Get c₂ x).1 = (none, some GoErr.cacheMiss)) ∧
    (∀ m0 mid', mid = m0 :: mid' →
      ∃ c₃ w₃, runOps (NewCache ⟨(N : Int)⟩) w
          (setOps (x :: mid) ++ [CacheOp.get x, CacheOp.set z ⟨0, true⟩]) = some (c₃, w₃) ∧
        x ∈ c₃.ids ∧ m0 ∉ c₃.ids) := by
  have hN0 : ((N : Int)) ≠ 0 := by
    simp only [ne_eq, Nat.cast_eq_zero]
    omega
  have hc0 : NewCache ⟨(N : Int)⟩ = ⟨[], ⟨(N : Int)⟩⟩ := by simp [NewCache, hN0]
  have hlen1 : (x :: mid).length = N := by simp [hmid]; omega
  have hxmz := List.nodup_cons.1 hnd
  have hxm : x ∉ mid := fun h => hxmz.1 (List.mem_append_left _ h)
  have hxz : x ≠ z := fun h => hxmz.1 (List.mem_append_right _ (by simp [h]))
  have hmz := List.nodup_append.1 hxmz.2
  have hmnd : mid.Nodup := hmz.1
  have hzm : z ∉ mid := fun h => hmz.2.2 h (List.mem_singleton_self z)
  have hnd1 : (x :: mid).Nodup := List.nodup_cons.2 ⟨hxm, hmnd⟩
  -- filling the first N ids
  have hfill := runOps_setOps_fill (x :: mid) ⟨[], ⟨(N : Int)⟩⟩ w
    (fun y _ => rfl) hnd1 (by simp [hlen1])
  have hfill' : runOps (NewCache ⟨(N : Int)⟩) w (setOps (x :: mid)) =
      some (⟨((x :: mid).map nodeOf).reverse, ⟨(N : Int)⟩⟩, w) := by
    rw [hc0, hfill]
    simp
  have hids₁ : (⟨((x :: mid).map nodeOf).reverse, (⟨(N : Int)⟩ : Config)⟩ : Cache).ids
      = (x :: mid).reverse := ids_reverse_map (x :: mid)
  have hLdec : ((x :: mid).map nodeOf).reverse = (mid.map nodeOf).reverse ++ [nodeOf x] := by
    simp [List.reverse_cons]
  -- the (N+1)-th insertion on the filled cache
  have hfz : findNode (((x :: mid).map nodeOf).reverse) z = none := by
    apply findNode_eq_none_of_not_mem_ids
    rw [ids_reverse_map]
    simp only [List.mem_reverse, List.mem_cons, not_or]
    exact ⟨fun h => hxz h.symm, hzm⟩
  have hcap2 : ((((x :: mid).map nodeOf).reverse).length : Int)
      ≥ (⟨((x :: mid).map nodeOf).reverse, (⟨(N : Int)⟩ : Config)⟩ : Cache).config.MaxCapacity := by
    simp [hlen1]
    omega
  have hset2 := Cache.Set_fresh_evict
    ⟨((x :: mid).map nodeOf).reverse, ⟨(N : Int)⟩⟩ w z ⟨0, true⟩
    ((mid.map nodeOf).reverse) (nodeOf x) hfz hcap2 hLdec
  have hrun2 : runOps (NewCache ⟨(N : Int)⟩) w (setOps (x :: mid ++ [z])) =
      some (⟨nodeOf z :: (mid.map nodeOf).reverse, ⟨(N : Int)⟩⟩,
        { w with unmapped := w.unmapped ++ [0] }) := by
    have hsplit : setOps (x :: mid ++ [z]) = setOps (x :: mid) ++ setOps [z] := by
      simp [setOps]
    rw [hsplit, runOps_append, hfill']
    show runOps _ w (setOps [z]) = _
    rw [show setOps [z] = [CacheOp.set z ⟨0, true⟩] from rfl, runOps, hset2]
    dsimp only
    rw [runOps]
    rfl
  have hids₂ : (⟨nodeOf z :: (mid.map nodeOf).reverse, (⟨(N : Int)⟩ : Config)⟩ : Cache).ids
      = z :: mid.reverse := by
    show z :: ((mid.map nodeOf).reverse).map CacheNode.id = z :: mid.reverse
    rw [ids_reverse_map]
  have hxnot₂ : x ∉ (⟨nodeOf z :: (mid.map nodeOf).reverse, (⟨(N : Int)⟩ : Config)⟩ : Cache).ids := by
    rw [hids₂]
    simp only [List.mem_cons, List.mem_reverse, not_or]
    exact ⟨hxz, hxm⟩
  refine ⟨⟨_, hfill', hids₁, by rw [hids₁]; simp⟩, ⟨_, _, hrun2, ?_, hxnot₂, ?_⟩, ?_⟩
  · rw [hids₂]
    simp [List.reverse_append]
  · rw [Cache.Get_miss _ x (findNode_eq_none_of_not_mem_ids _ x hxnot₂)]
  · rintro m0 mid' rfl
    have hxm0 : x ≠ m0 := fun h => hxm (h ▸ List.mem_cons_self m0 mid')
    have hzm0 : m0 ≠ z := fun h => hzm (h ▸ List.mem_cons_self m0 mid')
    have hm0mid' : m0 ∉ mid' := (List.nodup_cons.1 hmnd).1
    -- Get x hits the last node of the chain and promotes it
    have hM : ∀ p ∈ ((m0 :: mid').map nodeOf).reverse, p.id ≠ x := by
      intro p hp
      rw [List.mem_reverse, List.mem_map] at hp
      obtain ⟨y, hy, rfl⟩ := hp
      exact fun h => hxm (h ▸ hy)
    have hfind : findNode (((x :: m0 :: mid').map nodeOf).reverse) x = some (nodeOf x) := by
      rw [hLdec]
      exact findNode_concat _ _ x hM rfl
    have herase : eraseNode (((x :: m0 :: mid').map nodeOf).reverse) x
        = ((m0 :: mid').map nodeOf).reverse := by
      rw [hLdec]
      exact eraseNode_concat _ _ x hM rfl
    have hget := Cache.Get_hit ⟨((x :: m0 :: mid').map nodeOf).reverse, ⟨(N : Int)⟩⟩ x
      (nodeOf x) hfind
    -- the final insertion now evicts m0, the new back of the chain
    have hdec' : nodeOf x :: ((m0 :: mid').map nodeOf).reverse
        = (nodeOf x :: (mid'.map nodeOf).reverse) ++ [nodeOf m0] := by
      simp [List.reverse_cons]
    have hfz' : findNode (nodeOf x :: ((m0 :: mid').map nodeOf).reverse) z = none := by
      apply findNode_eq_none_of_not_mem_ids
      show z ∉ x :: ((m0 :: mid').map nodeOf).reverse.map CacheNode.id
      rw [ids_reverse_map]
      simp only [List.mem_cons, List.mem_reverse, not_or]
      exact ⟨fun h => hxz h.symm, fun h => hzm0 h.symm, fun h => hzm (List.mem_cons_of_mem m0 h)⟩
    have hcap' : (((nodeOf x :: ((m0 :: mid').map nodeOf).reverse)).length : Int)
        ≥ (⟨nodeOf x :: ((m0 :: mid').map nodeOf).reverse, (⟨(N : Int)⟩ : Config)⟩ : Cache).config.MaxCapacity := by
      have : (m0 :: mid').length = N - 1 := hmid
      simp only [List.length_cons, List.length_reverse, List.length_map]
      simp only [List.length_cons] at this
      simp
      omega
    have hset3 := Cache.Set_fresh_evict
      ⟨nodeOf x :: ((m0 :: mid').map nodeOf).reverse, ⟨(N : Int)⟩⟩ w z ⟨0, true⟩
      (nodeOf x :: (mid'.map nodeOf).reverse) (nodeOf m0) hfz' hcap' hdec'
    refine ⟨⟨nodeOf z :: nodeOf x :: (mid'.map nodeOf).reverse, ⟨(N : Int)⟩⟩,
      { w with unmapped := w.unmapped ++ [0] }, ?_, ?_, ?_⟩
    · rw [runOps_append, hfill']
      show runOps _ w [CacheOp.get x, CacheOp.set z ⟨0, true⟩] = _
      rw [runOps, hget]
      dsimp only
      rw [herase, runOps, hset3]
      dsimp only
      rw [runOps]
      rfl
    · show x ∈ z :: x :: (mid'.map nodeOf).reverse.map CacheNode.id
      simp
    · show m0 ∉ z :: x :: (mid'.map nodeOf).reverse.map CacheNode.id
      rw [ids_reverse_map]
      simp only [List.mem_cons, List.mem_reverse, not_or]
      exact ⟨hzm0, fun h => hxm0 h.symm, hm0mid'⟩

theorem lru_evicts_first_accessed_witness :
    (1 : Nat) ≤ 2 ∧
    ((∃ c₁, runOps (NewCache ⟨(2 : Int)⟩) World.init (setOps [0, 1]) = some (c₁, World.init) ∧
        c₁.ids = ([0, 1] : List Int).reverse ∧ (0 : Int) ∈ c₁.ids) ∧
      (∃ c₂ w₂, runOps (NewCache ⟨(2 : Int)⟩) World.init (setOps [0, 1, 2]) = some (c₂, w₂) ∧
        c₂.ids = (([0, 1, 2] : List Int).drop 1).reverse ∧
        (0 : Int) ∉ c₂.ids ∧ (Cache.Get c₂ 0).1 = (none, some GoErr.cacheMiss)) ∧
      (∀ m0 mid', [(1 : Int)] = m0 :: mid' →
        ∃ c₃ w₃, runOps (NewCache ⟨(2 : Int)⟩) World.init
            (setOps [0, 1] ++ [CacheOp.get 0, CacheOp.set 2 ⟨0, true⟩]) = some (c₃, w₃) ∧
          (0 : Int) ∈ c₃.ids ∧ m0 ∉ c₃.ids)) :=
  ⟨by decide,
   by
    have h := lru_evicts_first_accessed 2 (by decide) 0 2 [1] World.init (by decide) (by decide)
    exact h⟩

/-- **C2.**  `Read(id)` (over a cache whose capacity is at least one,
as every `NewCache`-built cache has): when the cache holds an entry
for `id`, it returns that entry's region.  Otherwise it asks
`Pager.GetPage` — surfacing a mapping error unchanged — and on success
obtains the fresh region `⟨w.nextRid, o.uok⟩`, hands it to
`Cache.Set` (after which the cache holds it for `id`), and returns it;
whenever `Set` returned an error, `Read` instead `Unmap`s the fresh
region before surfacing exactly that error with no region. -/
theorem read_cache_fallback_no_leak (d : DiskViewer) (w : World) (o : MapOracle) (id : Int)
    (hcap : 1 ≤ d.cache.config.MaxCapacity) :
    (∀ n, findNode d.cache.list id = some n →
      DiskViewer.Read d w o id =
        some (Except.ok n.data, ⟨(Cache.Get d.cache id).2, d.pager⟩, w)) ∧
    (∀ e, findNode d.cache.list id = none → o.mapErr = some e →
      DiskViewer.Read d w o id = some (Except.error e, d, w)) ∧
    (findNode d.cache.list id = none → o.mapErr = none →
      ∃ out c₁ w₂,
        Cache.Set d.cache { w with nextRid := w.nextRid + 1 } id ⟨w.nextRid, o.uok⟩
          = some (out, c₁, w₂) ∧
        findNode c₁.list id = some ⟨id, ⟨w.nextRid, o.uok⟩⟩ ∧
        (out = none →
          DiskViewer.Read d w o id =
            some (Except.ok ⟨w.nextRid, o.uok⟩, ⟨c₁, d.pager⟩, w₂)) ∧
        (∀ e, out = some e →
          DiskViewer.Read d w o id =
            some (Except.error e, ⟨c₁, d.pager⟩,
              { w₂ with unmapped := w₂.unmapped ++ [w.nextRid] }))) := by
  refine ⟨?_, ?_, ?_⟩
  · intro n hn
    unfold DiskViewer.Read
    rw [Cache.Get_hit d.cache id n hn]
  · intro e hf hmap
    unfold DiskViewer.Read
    rw [Cache.Get_miss d.cache id hf]
    dsimp only
    rw [show d.pager.GetPage w o id = (Except.error e, w) from by
      simp [Pager.GetPage, hmap]]
  · intro hf hmap
    obtain ⟨out, L', w₂, hset⟩ :=
      Cache.Set_fresh_shape d.cache { w with nextRid := w.nextRid + 1 } id
        ⟨w.nextRid, o.uok⟩ hf hcap
    refine ⟨out, ⟨⟨id, ⟨w.nextRid, o.uok⟩⟩ :: L', d.cache.config⟩, w₂, hset,
      by simp [findNode], ?_, ?_⟩
    · rintro rfl
      unfold DiskViewer.Read
      rw [Cache.Get_miss d.cache id hf]
      dsimp only
      rw [show d.pager.GetPage w o id =
          (Except.ok ⟨w.nextRid, o.uok⟩, { w with nextRid := w.nextRid + 1 }) from by
        simp [Pager.GetPage, hmap]]
      dsimp only
      rw [hset]
    · rintro e rfl
      unfold DiskViewer.Read
      rw [Cache.Get_miss d.cache id hf]
      dsimp only
      rw [show d.pager.GetPage w o id =
          (Except.ok ⟨w.nextRid, o.uok⟩, { w with nextRid := w.nextRid + 1 }) from by
        simp [Pager.GetPage, hmap]]
      dsimp only
      rw [hset]
      rfl

theorem read_cache_fallback_no_leak_witness :
    (1 : Int) ≤ (NewCache ⟨1⟩).config.MaxCapacity ∧
    (findNode (NewCache ⟨1⟩).list 0 = none → (none : Option GoErr) = none →
      ∃ out c₁ w₂,
        Cache.Set (NewCache ⟨1⟩) { World.init with nextRid := World.init.nextRid + 1 } 0
            ⟨World.init.nextRid, true⟩ = some (out, c₁, w₂) ∧
        findNode c₁.list 0 = some ⟨0, ⟨World.init.nextRid, true⟩⟩ ∧
        (out = none →
          DiskViewer.Read ⟨NewCache ⟨1⟩, ⟨4, 4⟩⟩ World.init ⟨none, true⟩ 0 =
            some (Except.ok ⟨World.init.nextRid, true⟩, ⟨c₁, (⟨4, 4⟩ : Pager)⟩, w₂)) ∧
        (∀ e, out = some e →
          DiskViewer.Read ⟨NewCache ⟨1⟩, ⟨4, 4⟩⟩ World.init ⟨none, true⟩ 0 =
            some (Except.error e, ⟨c₁, (⟨4, 4⟩ : Pager)⟩,
              { w₂ with unmapped := w₂.unmapped ++ [World.init.nextRid] }))) :=
  ⟨by decide,
   (read_cache_fallback_no_leak ⟨NewCache ⟨1⟩, ⟨4, 4⟩⟩ World.init ⟨none, true⟩ 0
     (by decide)).2.2⟩

/-- **C9.**  When `Cache.Set` inside a `Read` miss returns an error —
which happens exactly when the eviction's `Unmap` failed, *after* the
new entry was inserted — `Read` `Unmap`s the region it just handed to
`Set` and surfaces the error; the cache is left holding, for `id`, the
very region that was just unmapped, and a later `Cache.Close` of that
cache `Unmap`s the same region a second time (its identity appears
twice more in the unmap trace than before the `Read`). -/
theorem set_error_double_unmap (d : DiskViewer) (w : World) (o : MapOracle) (id : Int)
    (M : List CacheNode) (last : CacheNode)
    (hl : d.cache.list = M ++ [last])
    (hfresh : findNode d.cache.list id = none)
    (hcap : (d.cache.list.length : Int) ≥ d.cache.config.MaxCapacity)
    (hbad : last.data.unmapOk = false)
    (hmap : o.mapErr = none)
    (hrid : ∀ n ∈ d.cache.list, n.data.rid ≠ w.nextRid) :
    DiskViewer.Read d w o id =
      some (Except.error (GoErr.osUnmap last.data.rid),
        ⟨⟨⟨id, ⟨w.nextRid, o.uok⟩⟩ :: M, d.cache.config⟩, d.pager⟩,
        ⟨w.nextRid + 1, w.unmapped ++ [last.data.rid, w.nextRid], w.pagerClosed⟩) ∧
    ((⟨w.nextRid + 1, w.unmapped ++ [last.data.rid, w.nextRid], w.pagerClosed⟩ :
        World).unmapped.count w.nextRid = w.unmapped.count w.nextRid + 1) ∧
    ((Cache.Close ⟨⟨id, ⟨w.nextRid, o.uok⟩⟩ :: M, d.cache.config⟩
        ⟨w.nextRid + 1, w.unmapped ++ [last.data.rid, w.nextRid], w.pagerClosed⟩).2.2.unmapped.count
        w.nextRid = w.unmapped.count w.nextRid + 2) := by
  have hlastrid : last.data.rid ≠ w.nextRid :=
    hrid last (by rw [hl]; exact List.mem_append_right _ (List.mem_singleton_self last))
  have hMrid : w.nextRid ∉ M.map fun n => n.data.rid := by
    intro hmem
    rw [List.mem_map] at hmem
    obtain ⟨n, hn, hnrid⟩ := hmem
    exact hrid n (by rw [hl]; exact List.mem_append_left _ hn) hnrid
  have hset := Cache.Set_fresh_evict d.cache { w with nextRid := w.nextRid + 1 } id
    ⟨w.nextRid, o.uok⟩ M last hfresh hcap hl
  rw [hbad] at hset
  simp only [Bool.false_eq_true, if_false] at hset
  refine ⟨?_, ?_, ?_⟩
  · unfold DiskViewer.Read
    rw [Cache.Get_miss d.cache id hfresh]
    dsimp only
    rw [show d.pager.GetPage w o id =
        (Except.ok ⟨w.nextRid, o.uok⟩, { w with nextRid := w.nextRid + 1 }) from by
      simp [Pager.GetPage, hmap]]
    dsimp only
    rw [hset]
    dsimp only [Region.Unmap]
    rw [List.append_assoc]
    rfl
  · simp [List.count_append, hlastrid]
  · rw [Cache.Close_world]
    show (((w.unmapped ++ [last.data.rid, w.nextRid]) ++
        (w.nextRid :: M.map fun n => n.data.rid)).count w.nextRid) = _
    rw [List.count_append, List.count_append, List.count_cons_self,
      List.count_eq_zero.2 hMrid]
    simp [hlastrid]

theorem set_error_double_unmap_witness :
    DiskViewer.Read ⟨⟨[⟨0, ⟨0, false⟩⟩], ⟨1⟩⟩, ⟨4, 4⟩⟩ ⟨1, [], false⟩ ⟨none, true⟩ 1 =
      some (Except.error (GoErr.osUnmap 0),
        ⟨⟨[⟨1, ⟨1, true⟩⟩], ⟨1⟩⟩, ⟨4, 4⟩⟩, ⟨2, [0, 1], false⟩) ∧
    (([0, 1] : List Nat).count 1 = ([] : List Nat).count 1 + 1) ∧
    ((Cache.Close ⟨[⟨1, ⟨1, true⟩⟩], ⟨1⟩⟩ ⟨2, [0, 1], false⟩).2.2.unmapped.count 1 =
      ([] : List Nat).count 1 + 2) :=
  set_error_double_unmap ⟨⟨[⟨0, ⟨0, false⟩⟩], ⟨1⟩⟩, ⟨4, 4⟩⟩ ⟨1, [], false⟩ ⟨none, true⟩ 1
    [] ⟨0, ⟨0, false⟩⟩ rfl (by decide) (by decide) rfl rfl (by decide)

/-- The fill loop never extends the file past the end of the page it
is writing: every write lands inside `[offset, offset + remaining)`,
so the file size stays below any bound covering both the current size
and the page's end. -/
theorem fillLoop_le (steps : List FillStep) :
    ∀ (r offset fsize B : Nat), offset + r ≤ B → fsize ≤ B →
      ∀ res fs', fillLoop steps r offset fsize = some (res, fs') → fs' ≤ B := by
  induction steps with
  | nil =>
      intro r offset fsize B h1 h2 res fs' h
      cases r with
      | zero =>
          obtain ⟨-, rfl⟩ : res = none ∧ fs' = fsize := by
            simpa [fillLoop] using h.symm
          exact h2
      | succ r => simp [fillLoop] at h
  | cons s rest ih =>
      intro r offset fsize B h1 h2 res fs' h
      cases r with
      | zero =>
          obtain ⟨-, rfl⟩ : res = none ∧ fs' = fsize := by
            simpa [fillLoop] using h.symm
          exact h2
      | succ r =>
          simp only [fillLoop] at h
          have hwr : min s.n (r + 1) ≤ r + 1 := Nat.min_le_right _ _
          have hmax : max fsize (offset + min s.n (r + 1)) ≤ B :=
            max_le h2 (le_trans (by omega) h1)
          cases herr : s.err with
          | some e =>
              rw [herr] at h
              obtain ⟨-, rfl⟩ : res = some (GoErr.writeWrap offset e) ∧
                  fs' = max fsize (offset + min s.n (r + 1)) := by
                simpa using h.symm
              exact hmax
          | none =>
              rw [herr] at h
              exact ih (r + 1 - min s.n (r + 1)) (offset + min s.n (r + 1))
                (max fsize (offset + min s.n (r + 1))) B (by omega) hmax res fs' h

/-- When the fill loop returns without error and had bytes to write,
the file now reaches at least the end of the written page. -/
theorem fillLoop_success_ge (steps : List FillStep) :
    ∀ (r offset fsize : Nat) fs', fillLoop steps r offset fsize = some (none, fs') →
      (r = 0 ∧ fs' = fsize) ∨ offset + r ≤ fs' := by
  induction steps with
  | nil =>
      intro r offset fsize fs' h
      cases r with
      | zero =>
          obtain rfl : fs' = fsize := by simpa [fillLoop] using h.symm
          exact Or.inl ⟨rfl, rfl⟩
      | succ r => simp [fillLoop] at h
  | cons s rest ih =>
      intro r offset fsize fs' h
      cases r with
      | zero =>
          obtain rfl : fs' = fsize := by simpa [fillLoop] using h.symm
          exact Or.inl ⟨rfl, rfl⟩
      | succ r =>
          simp only [fillLoop] at h
          cases herr : s.err with
          | some e => rw [herr] at h; simp at h
          | none =>
              rw [herr] at h
              have hwr : min s.n (r + 1) ≤ r + 1 := Nat.min_le_right _ _
              rcases ih (r + 1 - min s.n (r + 1)) (offset + min s.n (r + 1))
                  (max fsize (offset + min s.n (r + 1))) fs' h with ⟨h0, rfl⟩ | hge
              · right
                have hall : min s.n (r + 1) = r + 1 := by omega
                rw [hall]
                exact le_max_right _ _
              · right
                omega

/-- The state invariant threaded through a `Create` sequence from an
empty file: the Pager's cached size records exactly the pages of the
`k` successful creates so far, and the live file never extends past
the page currently being allocated. -/
def CreateInv (ps k : Nat) (d : DiskViewer) (fs : Nat) : Prop :=
  d.pager.pageSize = ps ∧ d.pager.infoSize = k * ps ∧ fs ≤ (k + 1) * ps

/-- One `Create` call from an invariant state: a successful call
returns exactly id `k` and moves the invariant to `k + 1`; a failed
call leaves the Pager's cached metadata untouched and keeps the
invariant at `k`. -/
theorem Create_step (ps k : Nat) (hps : 0 < ps) (d : DiskViewer) (fs : Nat)
    (o : CreateOracle) (hinv : CreateInv ps k d fs) :
    ∀ res d' fs', DiskViewer.Create d fs o = some (res, d', fs') →
      (res = Except.ok (k : Int) ∧ CreateInv ps (k + 1) d' fs' ∧
        d'.pager.PageCount = k + 1) ∨
      ((∃ e, res = Except.error e) ∧ d'.pager = d.pager ∧ CreateInv ps k d' fs') := by
  obtain ⟨hpsz, hinfo, hfs⟩ := hinv
  intro res d' fs' h
  have hpc : d.pager.PageCount = k := by
    rw [Pager.PageCount, hinfo, hpsz, Nat.mul_div_cancel _ hps]
  unfold DiskViewer.Create at h
  rw [hpc, hpsz] at h
  dsimp only at h
  cases hfl : fillLoop o.steps ps (k * ps) fs with
  | none => rw [hfl] at h; simp at h
  | some p =>
      obtain ⟨fres, ffs⟩ := p
      have hle : ffs ≤ (k + 1) * ps :=
        fillLoop_le o.steps ps (k * ps) fs ((k + 1) * ps) (by rw [Nat.succ_mul]) hfs fres ffs hfl
      rw [hfl] at h
      cases fres with
      | some e =>
          obtain ⟨rfl, rfl, rfl⟩ : res = Except.error e ∧ d' = d ∧ fs' = ffs := by
            simpa using h.symm
          exact Or.inr ⟨⟨e, rfl⟩, rfl, hpsz, hinfo, hle⟩
      | none =>
          have hgec := fillLoop_success_ge o.steps ps (k * ps) fs ffs hfl
          have hffs : ffs = (k + 1) * ps := by
            rcases hgec with ⟨h0, -⟩ | hge
            · omega
            · exact le_antisymm hle (by rw [Nat.succ_mul]; exact hge)
          cases hstat : o.statErr with
          | some e =>
              rw [hstat] at h
              obtain ⟨rfl, rfl, rfl⟩ : res = Except.error (GoErr.refreshWrap e) ∧
                  d' = d ∧ fs' = ffs := by
                simpa [Pager.RefreshInfo] using h.symm
              exact Or.inr ⟨⟨_, rfl⟩, rfl, hpsz, hinfo, hle⟩
          | none =>
              rw [hstat] at h
              have hpc' : (Pager.mk ffs d.pager.pageSize).PageCount = k + 1 := by
                rw [Pager.PageCount, hffs, hpsz, Nat.mul_div_cancel _ hps]
              simp only [Pager.RefreshInfo] at h
              rw [hpc'] at h
              obtain ⟨rfl, rfl, rfl⟩ :
                  res = Except.ok (((k + 1 : Nat) : Int) - 1) ∧
                  d' = ⟨(Cache.Get d.cache (((k + 1 : Nat) : Int) - 1)).2,
                    ⟨ffs, d.pager.pageSize⟩⟩ ∧ fs' = ffs := by
                simpa using h.symm
              refine Or.inl ⟨by congr 1; push_cast; ring,
                ⟨hpsz, hffs, by rw [hffs]; exact Nat.mul_le_mul (by omega) (le_refl ps)⟩, hpc'⟩

/-- Running a sequence of `Create` calls from an invariant state: the
successful ids are consecutive starting at `k`, and afterwards the
cached page count has advanced by exactly the number of successes. -/
theorem runCreates_inv (ps : Nat) (hps : 0 < ps) (os : List CreateOracle) :
    ∀ (k : Nat) (d : DiskViewer) (fs : Nat), CreateInv ps k d fs →
      ∀ rs d' fs', runCreates d fs os = some (rs, d', fs') →
        okResults rs = (List.range' k (okResults rs).length).map Int.ofNat ∧
        d'.pager.PageCount = k + (okResults rs).length := by
  induction os with
  | nil =>
      intro k d fs hinv rs d' fs' h
      obtain ⟨rfl, rfl, rfl⟩ : rs = [] ∧ d' = d ∧ fs' = fs := by
        simpa [runCreates] using h.symm
      obtain ⟨hpsz, hinfo, -⟩ := hinv
      refine ⟨rfl, ?_⟩
      rw [Pager.PageCount, hinfo, hpsz, Nat.mul_div_cancel _ hps]
      simp [okResults]
  | cons o os ih =>
      intro k d fs hinv rs d' fs' h
      simp only [runCreates] at h
      cases hc : DiskViewer.Create d fs o with
      | none => rw [hc] at h; simp at h
      | some t =>
          obtain ⟨r, d₁, fs₁⟩ := t
          rw [hc] at h
          dsimp only at h
          cases hrest : runCreates d₁ fs₁ os with
          | none => rw [hrest] at h; simp at h
          | some t2 =>
              obtain ⟨rs₁, d₂, fs₂⟩ := t2
              rw [hrest] at h
              obtain ⟨rfl, rfl, rfl⟩ : rs = r :: rs₁ ∧ d' = d₂ ∧ fs' = fs₂ := by
                simpa using h.symm
              rcases Create_step ps k hps d fs o hinv r d₁ fs₁ hc with
                ⟨rfl, hinv', -⟩ | ⟨⟨e, rfl⟩, -, hinv'⟩
              · obtain ⟨hok, hcount⟩ := ih (k + 1) d₁ fs₁ hinv' rs₁ d' fs' hrest
                have hcons : okResults (Except.ok (k : Int) :: rs₁)
                    = (k : Int) :: okResults rs₁ := rfl
                rw [hcons]
                constructor
                · simp only [List.length_cons]
                  rw [List.range'_succ, List.map_cons, ← hok]
                  rfl
                · rw [hcount]
                  simp only [List.length_cons]
                  omega
              · have hcons : okResults (Except.error e :: rs₁) = okResults rs₁ := rfl
                rw [hcons]
                exact ih k d₁ fs₁ hinv' rs₁ d' fs' hrest

/-- **C1.**  Over a `DiskViewer` opened on an initially empty file
(any positive page size, any cache configuration), any sequence of
`Create` calls with no interleaving — each call driven by arbitrary
OS write/stat outcomes — returns, from its successful calls, exactly
the ids `0, 1, 2, …` in call order (each id equals the page count seen
before its call), and afterwards `PageCount()` equals the number of
successful creates. -/
theorem create_sequence_ids_contiguous (ps : Nat) (hps : 0 < ps) (cfg : Config)
    (os : List CreateOracle) (rs : List (Except GoErr Int)) (d' : DiskViewer) (fs' : Nat)
    (h : runCreates (New 0 ps cfg) 0 os = some (rs, d', fs')) :
    okResults rs = (List.range (okResults rs).length).map Int.ofNat ∧
    d'.pager.PageCount = (okResults rs).length := by
  have hinv : CreateInv ps 0 (New 0 ps cfg) 0 := ⟨rfl, by simp [New, NewPager], Nat.zero_le _⟩
  have hmain := runCreates_inv ps hps os 0 (New 0 ps cfg) 0 hinv rs d' fs' h
  exact ⟨by rw [List.range_eq_range']; exact hmain.1, by simpa using hmain.2⟩

theorem create_sequence_ids_contiguous_witness :
    (0 : Nat) < 4 ∧
    (okResults [Except.ok 0, Except.error (GoErr.writeWrap 4 (GoErr.osWrite 7)), Except.ok 1] =
        (List.range (okResults [Except.ok 0,
          Except.error (GoErr.writeWrap 4 (GoErr.osWrite 7)), Except.ok 1]).length).map
          Int.ofNat ∧
      (DiskViewer.mk (NewCache DefaultConfig) ⟨8, 4⟩).pager.PageCount =
        (okResults [Except.ok 0, Except.error (GoErr.writeWrap 4 (GoErr.osWrite 7)),
          Except.ok 1]).length) :=
  ⟨by decide,
   create_sequence_ids_contiguous 4 (by decide) DefaultConfig
     [⟨[⟨4, none⟩], none⟩, ⟨[⟨2, some (GoErr.osWrite 7)⟩], none⟩, ⟨[⟨4, none⟩], none⟩]
     [Except.ok 0, Except.error (GoErr.writeWrap 4 (GoErr.osWrite 7)), Except.ok 1]
     (DiskViewer.mk (NewCache DefaultConfig) ⟨8, 4⟩) 8 rfl⟩

end DiskView
